import Mathlib

/-!
# Verification of the turbo-tasks backend storage and cell-update core

Shallow embedding of `turbo-tasks-backend/src/backend/storage.rs` and
`turbo-tasks-backend/src/backend/operation/update_cell.rs`.

`AutoMap` (a hash map with unordered iteration) is embedded as an
association list without duplicate keys; hash-map iteration order is
unspecified in the source, so all iteration-level statements are made
order-independent (membership / set equality).
-/

set_option autoImplicit false

namespace TurboStorage

variable {K V I B : Type}

/-- Model of `AutoMap::get`: first entry with the given key. -/

def amGet [DecidableEq K] : List (K × V) → K → Option V
  | [], _ => none
  | (k', v) :: rest, k => if k = k' then some v else amGet rest k

/-- Model of `AutoMap::contains_key`. -/

def amContains [DecidableEq K] : List (K × V) → K → Bool
  | [], _ => false
  | (k', _) :: rest, k => if k = k' then true else amContains rest k

/-- Model of `AutoMap::insert`: replaces the value in place when the key is
present (returning the previous value), appends otherwise. -/

def amInsert [DecidableEq K] : List (K × V) → K → V → List (K × V) × Option V
  | [], k, v => ([(k, v)], none)
  | (k', v') :: rest, k, v =>
    if k = k' then ((k', v) :: rest, some v')
    else
      let r := amInsert rest k v
      ((k', v') :: r.1, r.2)

/-- Model of `AutoMap::remove`: removes the entry with the given key
(returning the previous value) when present. -/

def amRemove [DecidableEq K] : List (K × V) → K → List (K × V) × Option V
  | [], _ => ([], none)
  | (k', v') :: rest, k =>
    if k = k' then (rest, some v')
    else
      let r := amRemove rest k
      ((k', v') :: r.1, r.2)

/-- Model of the `Entry` based `add`: insert only if absent, report whether
an insertion happened. -/

def amAdd [DecidableEq K] (m : List (K × V)) (k : K) (v : V) :
    List (K × V) × Bool :=
  if amContains m k then (m, false) else (m ++ [(k, v)], true)

/-- Model of the body of `InnerStorage::update` acting on one `AutoMap`:
the closure is called exactly once with the current value and may also
return an auxiliary result (modelling state captured by a Rust closure,
as in the `update_count!` macro). -/

def amUpdate [DecidableEq K] (m : List (K × V)) (k : K)
    (f : Option V → Option V × B) : List (K × V) × B :=
  match amGet m k with
  | some v =>
    let r := f (some v)
    match r.1 with
    | some v' => ((amInsert m k v').1, r.2)
    | none => ((amRemove m k).1, r.2)
  | none =>
    let r := f none
    match r.1 with
    | some v => (m ++ [(k, v)], r.2)
    | none => (m, r.2)

/-- Well-formedness of an association-list map: no duplicate keys. -/

def amWF (m : List (K × V)) : Prop := (m.map Prod.fst).Nodup

/-- Model of `IndexedMap::entry(index).or_default()` followed by an in-place
mutation of the inner map: modifies the bucket of the given index, creating
an empty bucket first when absent. -/

def ixEntryModify [DecidableEq I] :
    List (I × List (K × V)) → I → (List (K × V) → List (K × V) × B) →
      List (I × List (K × V)) × B
  | [], i, f =>
    let r := f []
    ([(i, r.1)], r.2)
  | (j, b) :: rest, i, f =>
    if i = j then
      let r := f b
      ((j, r.1) :: rest, r.2)
    else
      let r := ixEntryModify rest i f
      ((j, b) :: r.1, r.2)

/-- The bucket stored under an index, the empty map when absent
(`entry(..).or_default()` view used for reading). -/

def bucketOf [DecidableEq I] (m : List (I × List (K × V))) (i : I) :
    List (K × V) :=
  (amGet m i).getD []

/-- Well-formedness of the two-level indexed representation: distinct
bucket indices, well-formed buckets, and every key stored under the bucket
of its own index. -/

def ixWF [DecidableEq I] (ix : K → I) (m : List (I × List (K × V))) : Prop :=
  amWF m ∧ ∀ p ∈ m, amWF p.2 ∧ ∀ q ∈ p.2, ix q.1 = p.1

/-- Size threshold at which a per-task record store switches from the flat
to the indexed representation (`INDEX_THRESHOLD` in `storage.rs`). -/

def INDEX_THRESHOLD : Nat := 1024

/-- Model of `InnerStorage<T>`: the per-task record store for one record
kind, either a flat map or a two-level indexed map. -/

inductive InnerStorage (K V I : Type) where
  | Plain (map : List (K × V))
  | Indexed (map : List (I × List (K × V)))

/-- One step of the `check_threshold` rebuild loop:
`map.entry(key.index()).or_default().insert(key, value)`. -/

def convertStep [DecidableEq K] [DecidableEq I] (ix : K → I)
    (m : List (I × List (K × V))) (p : K × V) : List (I × List (K × V)) :=
  (ixEntryModify m (ix p.1) (fun b => ((amInsert b p.1 p.2).1, ()))).1

/-- The flat-to-indexed rebuild of `check_threshold`: redistribute every
`(key, value)` pair of the plain map into the bucket of its index. -/

def convert [DecidableEq K] [DecidableEq I] (ix : K → I)
    (l : List (K × V)) : List (I × List (K × V)) :=
  l.foldl (convertStep ix) []

/-- Model of `InnerStorage::check_threshold`: if the store is still flat and
holds at least `INDEX_THRESHOLD` records, rebuild it into the indexed
representation; otherwise leave it unchanged. -/

def check_threshold [DecidableEq K] [DecidableEq I] (ix : K → I) :
    InnerStorage K V I → InnerStorage K V I
  | .Plain m => if m.length ≥ INDEX_THRESHOLD then .Indexed (convert ix m) else .Plain m
  | .Indexed m => .Indexed m

/-- Model of `InnerStorage::get` (`get_map` composed with the inner map's
`get`). -/

def InnerStorage.get [DecidableEq K] [DecidableEq I] (ix : K → I) :
    InnerStorage K V I → K → Option V
  | .Plain m, k => amGet m k
  | .Indexed m, k =>
    match amGet m (ix k) with
    | some b => amGet b k
    | none => none

/-- Model of `InnerStorage::has_key`. -/

def InnerStorage.has_key [DecidableEq K] [DecidableEq I] (ix : K → I) :
    InnerStorage K V I → K → Bool
  | .Plain m, k => amContains m k
  | .Indexed m, k =>
    match amGet m (ix k) with
    | some b => amContains b k
    | none => false

/-- Model of `InnerStorage::is_indexed`. -/

def InnerStorage.is_indexed : InnerStorage K V I → Bool
  | .Plain _ => false
  | .Indexed _ => true

/-- Model of `InnerStorage::iter(index)`: the bucket of that index once
indexed; the whole map while still flat. -/

def InnerStorage.iter [DecidableEq I] : InnerStorage K V I → I → List (K × V)
  | .Plain m, _ => m
  | .Indexed m, i =>
    match amGet m i with
    | some b => b
    | none => []

/-- Model of `InnerStorage::iter_all`. -/

def InnerStorage.iter_all : InnerStorage K V I → List (K × V)
  | .Plain m => m
  | .Indexed m => (m.map Prod.snd).flatten

/-- Model of `get_map_mut` followed by an in-place mutation of the returned
map: run `check_threshold`, locate the map the key routes to (the flat map,
or the key's bucket created on demand), and apply the mutation there. -/

def InnerStorage.modifyMap [DecidableEq K] [DecidableEq I] (ix : K → I)
    (s : InnerStorage K V I) (k : K)
    (f : List (K × V) → List (K × V) × B) : InnerStorage K V I × B :=
  match check_threshold ix s with
  | .Plain m =>
    let r := f m
    (.Plain r.1, r.2)
  | .Indexed m =>
    let r := ixEntryModify m (ix k) f
    (.Indexed r.1, r.2)

/-- Model of `InnerStorage::add`. -/

def InnerStorage.add [DecidableEq K] [DecidableEq I] (ix : K → I)
    (s : InnerStorage K V I) (k : K) (v : V) : InnerStorage K V I × Bool :=
  s.modifyMap ix k (fun m => amAdd m k v)

/-- Model of `InnerStorage::insert`: inserts or replaces, returning the
previous value. -/

def InnerStorage.insert [DecidableEq K] [DecidableEq I] (ix : K → I)
    (s : InnerStorage K V I) (k : K) (v : V) :
    InnerStorage K V I × Option V :=
  s.modifyMap ix k (fun m => amInsert m k v)

/-- Model of `InnerStorage::remove`: removes, returning the previous
value. -/

def InnerStorage.remove [DecidableEq K] [DecidableEq I] (ix : K → I)
    (s : InnerStorage K V I) (k : K) : InnerStorage K V I × Option V :=
  s.modifyMap ix k (fun m => amRemove m k)

/-- Model of `InnerStorage::update` generalized with the auxiliary result
of the closure (Rust closures mutate captured state; `update_count!` uses
this to report a sign change). -/

def InnerStorage.updateWith [DecidableEq K] [DecidableEq I] (ix : K → I)
    (s : InnerStorage K V I) (k : K) (f : Option V → Option V × B) :
    InnerStorage K V I × B :=
  s.modifyMap ix k (fun m => amUpdate m k f)

/-- Model of `InnerStorage::update`. -/

def InnerStorage.update [DecidableEq K] [DecidableEq I] (ix : K → I)
    (s : InnerStorage K V I) (k : K) (f : Option V → Option V) :
    InnerStorage K V I :=
  (s.updateWith ix k (fun o => (f o, ()))).1

/-- Well-formedness of a per-task record store. -/

def InnerStorage.WF [DecidableEq I] (ix : K → I) :
    InnerStorage K V I → Prop
  | .Plain m => amWF m
  | .Indexed m => ixWF ix m

/-- Two's-complement wrap to the `i32` range `[-2^31, 2^31)`, the result of
Rust's release-mode `i32` addition on an out-of-range mathematical sum
(debug builds panic on overflow instead). -/
def wrap32 (x : Int) : Int :=
  (x + 2 ^ 31) % 2 ^ 32 - 2 ^ 31

/-- Model of the `update_count!` macro: adjusts an `i32` counter record by
`delta` through `InnerStorage::update`, computing `new = old + update` with
release-mode wrapping 32-bit arithmetic, keeping the new count only when
nonzero (no record is created when an absent count is adjusted by zero),
and reports whether the count's positivity changed. `delta` and the stored
counts model `i32` values. -/
def update_count [DecidableEq K] [DecidableEq I] (ix : K → I)
    (s : InnerStorage K Int I) (k : K) (delta : Int) :
    InnerStorage K Int I × Bool :=
  s.updateWith ix k (fun old =>
    match old with
    | some o =>
      let n := wrap32 (o + delta)
      (if n ≠ 0 then some n else none,
        decide ((o ≤ 0 ∧ n > 0) ∨ (o > 0 ∧ n ≤ 0)))
    | none =>
      (if delta ≠ 0 then some delta else none, decide (delta > 0)))

/-- One operation on a per-task record store, from the spec's operation
inventory; the read-only ones leave the store unchanged. -/
inductive StoreOp (K V I : Type) where
  | add (k : K) (v : V)
  | insert (k : K) (v : V)
  | remove (k : K)
  | update (k : K) (f : Option V → Option V)
  | get (k : K)
  | has_key (k : K)
  | iter (i : I)
  | iter_all

/-- Apply one store operation, discarding read results. -/
def applyOp [DecidableEq K] [DecidableEq I] (ix : K → I)
    (s : InnerStorage K V I) : StoreOp K V I → InnerStorage K V I
  | .add k v => (s.add ix k v).1
  | .insert k v => (s.insert ix k v).1
  | .remove k => (s.remove ix k).1
  | .update k f => s.update ix k f
  | .get _ => s
  | .has_key _ => s
  | .iter _ => s
  | .iter_all => s

/-- Apply a sequence of store operations from left to right. -/
def applyOps [DecidableEq K] [DecidableEq I] (ix : K → I)
    (s : InnerStorage K V I) (ops : List (StoreOp K V I)) :
    InnerStorage K V I :=
  ops.foldl (applyOp ix) s

/-- Modelled from the spec: a cell identifier is a (type-tag, index) pair
(`CellId` of the `turbo-tasks` crate, whose definition is not among the
sources). -/
structure CellId where
  typeId : Nat
  index : Nat
deriving DecidableEq

/-- Modelled from the spec: the wait-notification handle carried by an
In-Progress Cell Marker, abstracted to the number of currently blocked
waiters (`Event` of the `turbo-tasks` crate, whose definition is not among
the sources); `notify(count)` releases up to `count` of them. -/
structure Event where
  waiters : Nat
deriving DecidableEq

/-- Number of waiters still blocked after `event.notify(count)`. -/
def Event.waitersAfterNotify (e : Event) (count : Nat) : Nat :=
  e.waiters - count

/-- `usize::MAX` on a 64-bit platform, the wake count used by
`UpdateCellOperation::run`. -/
def USIZE_MAX : Nat := 2 ^ 64 - 1

/-- Modelled from the spec: the key halves of the `CachedDataItem` record
kinds relevant to the cell-update protocol (`data.rs` is not among the
sources; kinds and sub-keys follow the spec's data model). -/
inductive CKey where
  | cellData (cell : CellId)
  | inProgressCell (cell : CellId)
  | dirty
  | cellDependent (cell : CellId) (task : Nat)
deriving DecidableEq

/-- Modelled from the spec: the value halves of the `CachedDataItem` record
kinds, with the stored cell value abstracted to a type parameter. -/
inductive CValue (D : Type) where
  | cellData (value : D)
  | inProgressCell (event : Event)
  | dirty
  | cellDependent
deriving DecidableEq

/-- Modelled from the spec: the grouping-index values used by the
`iter_many!` macros (`indicies::<Kind>` of `data.rs`, not among the
sources): one index per record kind. -/
inductive CKind where
  | cellData
  | inProgressCell
  | dirty
  | cellDependent
deriving DecidableEq

/-- Modelled from the spec: the grouping function of a record key, a pure
function of the key (`Indexed` impl of `data.rs`, not among the sources):
every key groups under its record kind's index. -/
def CKey.kindIndex : CKey → CKind
  | .cellData _ => .cellData
  | .inProgressCell _ => .inProgressCell
  | .dirty => .dirty
  | .cellDependent _ _ => .cellDependent

/-- The record store holding one task's `CachedDataItem` records. -/
abbrev TaskStore (D : Type) := InnerStorage CKey (CValue D) CKind

/-- Whether a value variant matches its key's record kind; holds for every
record by construction in Rust, where `CachedDataItem` couples both halves
in one enum variant. -/
def kindMatches {D : Type} : CKey → CValue D → Bool
  | .cellData _, .cellData _ => true
  | .inProgressCell _, .inProgressCell _ => true
  | .dirty, .dirty => true
  | .cellDependent _ _, .cellDependent => true
  | _, _ => false

/-- A task store all of whose records have matching key and value kinds. -/
def TypedStore {D : Type} (s : TaskStore D) : Prop :=
  ∀ p ∈ s.iter_all, kindMatches p.1 p.2 = true

/-- The Apply step of `UpdateCellOperation::run`: present content is
inserted as the cell's Cell Content record, absent content removes it;
either way the previous value is captured. -/
def applyContent {D : Type} (s : TaskStore D) (cell : CellId)
    (content : Option D) : TaskStore D × Option (CValue D) :=
  match content with
  | some v => s.insert CKey.kindIndex (.cellData cell) (.cellData v)
  | none => s.remove CKey.kindIndex (.cellData cell)

/-- Result of one `UpdateCellOperation::run` call: the task's store after
the mutation, the notification issued on a removed In-Progress Cell
Marker's handle (paired with the wake count passed to `notify`), and the
dependent-task list handed to `InvalidateOperation::run` (`none` when
invalidation was skipped). -/
structure RunResult (D : Type) where
  store : TaskStore D
  notified : Option (Event × Nat)
  invalidated : Option (List Nat)

/-- Model of `UpdateCellOperation::run`: apply the new content, release
waiters of an In-Progress Cell Marker, short-circuit when there was no
previous content and the task carries no Dirty Flag, otherwise collect the
cell's dependents and invoke the Invalidation Operation on them. -/
def UpdateCellOperation.run {D : Type} (s : TaskStore D) (cell : CellId)
    (content : Option D) : RunResult D :=
  let r1 := applyContent s cell content
  let r2 := r1.1.remove CKey.kindIndex (.inProgressCell cell)
  let notified : Option (Event × Nat) :=
    match r2.2 with
    | some (CValue.inProgressCell e) => some (e, USIZE_MAX)
    | _ => none
  let recomputed := r1.2.isNone && !(r2.1.has_key CKey.kindIndex .dirty)
  if recomputed then
    { store := r2.1, notified := notified, invalidated := none }
  else
    let dependent := (r2.1.iter CKind.cellDependent).filterMap
      (fun p =>
        match p with
        | (CKey.cellDependent dc t, CValue.cellDependent) =>
          if dc = cell then some t else none
        | _ => none)
    { store := r2.1, notified := notified, invalidated := some dependent }

instance [DecidableEq K] (m : List (K × V)) : Decidable (amWF m) :=
  inferInstanceAs (Decidable ((m.map Prod.fst).Nodup))

instance [DecidableEq K] [DecidableEq I] (ix : K → I)
    (m : List (I × List (K × V))) : Decidable (ixWF ix m) :=
  inferInstanceAs (Decidable (_ ∧ _))

instance [DecidableEq K] [DecidableEq I] (ix : K → I) :
    (s : InnerStorage K V I) → Decidable (s.WF ix)
  | .Plain m => inferInstanceAs (Decidable (amWF m))
  | .Indexed m => inferInstanceAs (Decidable (ixWF ix m))

instance {D : Type} (s : TaskStore D) : Decidable (TypedStore s) :=
  inferInstanceAs (Decidable (∀ p ∈ s.iter_all, kindMatches p.1 p.2 = true))

/-! ## Lemmas and theorems -/

theorem amWF_nil : amWF ([] : List (K × V)) := List.nodup_nil

theorem amWF_cons {m : List (K × V)} {k : K} {v : V} (h : amWF ((k, v) :: m)) :
    amWF m := (List.nodup_cons.mp h).2

theorem amWF_cons_not_mem {m : List (K × V)} {k : K} {v : V}
    (h : amWF ((k, v) :: m)) : k ∉ m.map Prod.fst := (List.nodup_cons.mp h).1

theorem amGet_eq_none_of_not_mem [DecidableEq K] {m : List (K × V)} {k : K}
    (h : k ∉ m.map Prod.fst) : amGet m k = none := by
  induction m with
  | nil => rfl
  | cons p rest ih =>
    obtain ⟨k', v'⟩ := p
    simp only [List.map_cons, List.mem_cons] at h
    push_neg at h
    simp only [amGet, if_neg h.1]
    exact ih h.2

theorem amContains_eq_isSome [DecidableEq K] (m : List (K × V)) (k : K) :
    amContains m k = (amGet m k).isSome := by
  induction m with
  | nil => rfl
  | cons p rest ih =>
    obtain ⟨k', v'⟩ := p
    by_cases h : k = k' <;> simp [amContains, amGet, h, ih]

theorem amGet_mem [DecidableEq K] {m : List (K × V)} {k : K} {v : V}
    (h : amGet m k = some v) : (k, v) ∈ m := by
  induction m with
  | nil => simp [amGet] at h
  | cons p rest ih =>
    obtain ⟨k', v'⟩ := p
    by_cases hk : k = k'
    · simp only [amGet, if_pos hk] at h
      subst hk
      simp [Option.some_inj.mp h]
    · simp only [amGet, if_neg hk] at h
      exact List.mem_cons_of_mem _ (ih h)

theorem mem_amGet [DecidableEq K] {m : List (K × V)} (hm : amWF m) {k : K}
    {v : V} (h : (k, v) ∈ m) : amGet m k = some v := by
  induction m with
  | nil => simp at h
  | cons p rest ih =>
    obtain ⟨k', v'⟩ := p
    by_cases hk : k = k'
    · subst hk
      simp only [amGet, if_pos rfl]
      rcases List.mem_cons.mp h with h | h
      · simp only [Prod.mk.injEq, true_and] at h
        simp [h]
      · exact absurd (List.mem_map_of_mem Prod.fst h) (amWF_cons_not_mem hm)
    · simp only [amGet, if_neg hk]
      rcases List.mem_cons.mp h with h | h
      · simp only [Prod.mk.injEq] at h
        exact absurd h.1 hk
      · exact ih (amWF_cons hm) h

theorem mem_iff_amGet [DecidableEq K] {m : List (K × V)} (hm : amWF m)
    (k : K) (v : V) : (k, v) ∈ m ↔ amGet m k = some v :=
  ⟨mem_amGet hm, amGet_mem⟩

theorem amContains_iff_mem [DecidableEq K] (m : List (K × V)) (k : K) :
    amContains m k = true ↔ k ∈ m.map Prod.fst := by
  induction m with
  | nil => simp [amContains]
  | cons p rest ih =>
    obtain ⟨k', v'⟩ := p
    by_cases h : k = k' <;> simp [amContains, h, ih]

theorem amInsert_get_self [DecidableEq K] (m : List (K × V)) (k : K) (v : V) :
    amGet (amInsert m k v).1 k = some v := by
  induction m with
  | nil => simp [amInsert, amGet]
  | cons p rest ih =>
    obtain ⟨k', v'⟩ := p
    by_cases h : k = k' <;> simp [amInsert, amGet, h, ih]

theorem amInsert_get_ne [DecidableEq K] (m : List (K × V)) (k : K) (v : V)
    {k' : K} (hne : k' ≠ k) : amGet (amInsert m k v).1 k' = amGet m k' := by
  induction m with
  | nil => simp [amInsert, amGet, hne]
  | cons p rest ih =>
    obtain ⟨k₀, v₀⟩ := p
    by_cases h : k = k₀
    · subst h
      simp [amInsert, amGet, hne]
    · by_cases h' : k' = k₀ <;> simp [amInsert, amGet, h, h', ih]

theorem amInsert_snd [DecidableEq K] (m : List (K × V)) (k : K) (v : V) :
    (amInsert m k v).2 = amGet m k := by
  induction m with
  | nil => simp [amInsert, amGet]
  | cons p rest ih =>
    obtain ⟨k₀, v₀⟩ := p
    by_cases h : k = k₀ <;> simp [amInsert, amGet, h, ih]

theorem amInsert_map_fst [DecidableEq K] (m : List (K × V)) (k : K) (v : V) :
    (amInsert m k v).1.map Prod.fst =
      if k ∈ m.map Prod.fst then m.map Prod.fst else m.map Prod.fst ++ [k] := by
  induction m with
  | nil => simp [amInsert]
  | cons p rest ih =>
    obtain ⟨k₀, v₀⟩ := p
    by_cases h : k = k₀
    · subst h
      simp [amInsert]
    · simp only [amInsert, if_neg h, List.map_cons, List.mem_cons, ih]
      by_cases h' : k ∈ rest.map Prod.fst <;> simp [h, h']

theorem amInsert_WF [DecidableEq K] {m : List (K × V)} (hm : amWF m) (k : K)
    (v : V) : amWF (amInsert m k v).1 := by
  unfold amWF
  rw [amInsert_map_fst]
  by_cases h : k ∈ m.map Prod.fst
  · simpa [h] using hm
  · simp only [if_neg h]
    exact List.Nodup.append hm (List.nodup_singleton k) (by simpa using h)

theorem amRemove_map_fst_sublist [DecidableEq K] (m : List (K × V)) (k : K) :
    List.Sublist ((amRemove m k).1.map Prod.fst) (m.map Prod.fst) := by
  induction m with
  | nil => simp [amRemove]
  | cons p rest ih =>
    obtain ⟨k₀, v₀⟩ := p
    by_cases h : k = k₀
    · simp only [amRemove, if_pos h, List.map_cons]
      exact List.sublist_cons_self _ _
    · simp only [amRemove, if_neg h, List.map_cons]
      exact ih.cons₂ _

theorem amRemove_WF [DecidableEq K] {m : List (K × V)} (hm : amWF m) (k : K) :
    amWF (amRemove m k).1 :=
  List.Nodup.sublist (amRemove_map_fst_sublist m k) hm

theorem amRemove_get_self [DecidableEq K] {m : List (K × V)} (hm : amWF m)
    (k : K) : amGet (amRemove m k).1 k = none := by
  induction m with
  | nil => simp [amRemove, amGet]
  | cons p rest ih =>
    obtain ⟨k₀, v₀⟩ := p
    by_cases h : k = k₀
    · subst h
      simp only [amRemove, if_pos rfl]
      exact amGet_eq_none_of_not_mem (amWF_cons_not_mem hm)
    · simp only [amRemove, if_neg h, amGet, if_neg h]
      exact ih (amWF_cons hm)

theorem amRemove_get_ne [DecidableEq K] (m : List (K × V)) (k : K) {k' : K}
    (hne : k' ≠ k) : amGet (amRemove m k).1 k' = amGet m k' := by
  induction m with
  | nil => simp [amRemove]
  | cons p rest ih =>
    obtain ⟨k₀, v₀⟩ := p
    by_cases h : k = k₀
    · subst h
      simp [amRemove, amGet, hne]
    · by_cases h' : k' = k₀ <;> simp [amRemove, amGet, h, h', ih]

theorem amRemove_snd [DecidableEq K] (m : List (K × V)) (k : K) :
    (amRemove m k).2 = amGet m k := by
  induction m with
  | nil => rfl
  | cons p rest ih =>
    obtain ⟨k₀, v₀⟩ := p
    by_cases h : k = k₀ <;> simp [amRemove, amGet, h, ih]

theorem amGet_append_single_self [DecidableEq K] {m : List (K × V)} {k : K}
    (h : amGet m k = none) (v : V) : amGet (m ++ [(k, v)]) k = some v := by
  induction m with
  | nil => simp [amGet]
  | cons p rest ih =>
    obtain ⟨k₀, v₀⟩ := p
    by_cases hk : k = k₀
    · simp [amGet, hk] at h
    · simp only [amGet, if_neg hk] at h ⊢
      simpa using ih h

theorem amGet_append_single_ne [DecidableEq K] (m : List (K × V)) (k : K)
    (v : V) {k' : K} (hne : k' ≠ k) : amGet (m ++ [(k, v)]) k' = amGet m k' := by
  induction m with
  | nil => simp [amGet, hne]
  | cons p rest ih =>
    obtain ⟨k₀, v₀⟩ := p
    by_cases h : k' = k₀ <;> simp [amGet, h, ih]

theorem amUpdate_eq_ss [DecidableEq K] {m : List (K × V)} {k : K}
    {f : Option V → Option V × B} {v v' : V} (hg : amGet m k = some v)
    (hf : (f (some v)).1 = some v') :
    amUpdate m k f = ((amInsert m k v').1, (f (some v)).2) := by
  unfold amUpdate
  rw [hg]
  simp only [hf]

theorem amUpdate_eq_sn [DecidableEq K] {m : List (K × V)} {k : K}
    {f : Option V → Option V × B} {v : V} (hg : amGet m k = some v)
    (hf : (f (some v)).1 = none) :
    amUpdate m k f = ((amRemove m k).1, (f (some v)).2) := by
  unfold amUpdate
  rw [hg]
  simp only [hf]

theorem amUpdate_eq_ns [DecidableEq K] {m : List (K × V)} {k : K}
    {f : Option V → Option V × B} {v : V} (hg : amGet m k = none)
    (hf : (f none).1 = some v) : amUpdate m k f = (m ++ [(k, v)], (f none).2) := by
  unfold amUpdate
  rw [hg]
  simp only [hf]

theorem amUpdate_eq_nn [DecidableEq K] {m : List (K × V)} {k : K}
    {f : Option V → Option V × B} (hg : amGet m k = none)
    (hf : (f none).1 = none) : amUpdate m k f = (m, (f none).2) := by
  unfold amUpdate
  rw [hg]
  simp only [hf]

theorem amUpdate_get_self [DecidableEq K] {m : List (K × V)} (hm : amWF m)
    (k : K) (f : Option V → Option V × B) :
    amGet (amUpdate m k f).1 k = (f (amGet m k)).1 := by
  cases hg : amGet m k with
  | some v =>
    cases hf : (f (some v)).1 with
    | some v' =>
      rw [amUpdate_eq_ss hg hf]
      exact amInsert_get_self m k v'
    | none =>
      rw [amUpdate_eq_sn hg hf]
      exact amRemove_get_self hm k
  | none =>
    cases hf : (f none).1 with
    | some v =>
      rw [amUpdate_eq_ns hg hf]
      exact amGet_append_single_self hg v
    | none =>
      rw [amUpdate_eq_nn hg hf]
      exact hg

theorem amUpdate_get_ne [DecidableEq K] (m : List (K × V)) (k : K)
    (f : Option V → Option V × B) {k' : K} (hne : k' ≠ k) :
    amGet (amUpdate m k f).1 k' = amGet m k' := by
  cases hg : amGet m k with
  | some v =>
    cases hf : (f (some v)).1 with
    | some v' => rw [amUpdate_eq_ss hg hf]; exact amInsert_get_ne _ _ _ hne
    | none => rw [amUpdate_eq_sn hg hf]; exact amRemove_get_ne _ _ hne
  | none =>
    cases hf : (f none).1 with
    | some v => rw [amUpdate_eq_ns hg hf]; exact amGet_append_single_ne _ _ _ hne
    | none => rw [amUpdate_eq_nn hg hf]

theorem amUpdate_snd [DecidableEq K] (m : List (K × V)) (k : K)
    (f : Option V → Option V × B) : (amUpdate m k f).2 = (f (amGet m k)).2 := by
  cases hg : amGet m k with
  | some v =>
    cases hf : (f (some v)).1 with
    | some v' => rw [amUpdate_eq_ss hg hf]
    | none => rw [amUpdate_eq_sn hg hf]
  | none =>
    cases hf : (f none).1 with
    | some v => rw [amUpdate_eq_ns hg hf]
    | none => rw [amUpdate_eq_nn hg hf]

theorem amUpdate_map_fst_subset [DecidableEq K] (m : List (K × V)) (k : K)
    (f : Option V → Option V × B) :
    ∀ x ∈ (amUpdate m k f).1.map Prod.fst, x ∈ m.map Prod.fst ∨ x = k := by
  intro x hx
  cases hg : amGet m k with
  | some v =>
    cases hf : (f (some v)).1 with
    | some v' =>
      rw [amUpdate_eq_ss hg hf] at hx
      simp only [amInsert_map_fst] at hx
      split at hx
      · exact Or.inl hx
      · rcases List.mem_append.mp hx with h | h
        · exact Or.inl h
        · simp only [List.mem_singleton] at h
          exact Or.inr h
    | none =>
      rw [amUpdate_eq_sn hg hf] at hx
      exact Or.inl ((amRemove_map_fst_sublist m k).subset hx)
  | none =>
    cases hf : (f none).1 with
    | some v =>
      rw [amUpdate_eq_ns hg hf] at hx
      simp only [List.map_append, List.map_cons, List.map_nil,
        List.mem_append, List.mem_singleton] at hx
      exact hx
    | none =>
      rw [amUpdate_eq_nn hg hf] at hx
      exact Or.inl hx

theorem amUpdate_WF [DecidableEq K] {m : List (K × V)} (hm : amWF m) (k : K)
    (f : Option V → Option V × B) : amWF (amUpdate m k f).1 := by
  cases hg : amGet m k with
  | some v =>
    cases hf : (f (some v)).1 with
    | some v' => rw [amUpdate_eq_ss hg hf]; exact amInsert_WF hm k v'
    | none => rw [amUpdate_eq_sn hg hf]; exact amRemove_WF hm k
  | none =>
    cases hf : (f none).1 with
    | some v =>
      rw [amUpdate_eq_ns hg hf]
      unfold amWF
      simp only [List.map_append, List.map_cons, List.map_nil]
      refine List.Nodup.append hm (List.nodup_singleton k) ?_
      intro x hx hk
      simp only [List.mem_singleton] at hk
      subst hk
      have hc : amContains m x = true := (amContains_iff_mem m x).mpr hx
      rw [amContains_eq_isSome, hg] at hc
      simp at hc
    | none => rw [amUpdate_eq_nn hg hf]; exact hm

theorem ixEM_get_self [DecidableEq I] (m : List (I × List (K × V))) (i : I)
    (f : List (K × V) → List (K × V) × B) :
    amGet (ixEntryModify m i f).1 i = some (f (bucketOf m i)).1 := by
  induction m with
  | nil => simp [ixEntryModify, amGet, bucketOf]
  | cons p rest ih =>
    obtain ⟨j, b⟩ := p
    by_cases h : i = j
    · subst h
      simp [ixEntryModify, amGet, bucketOf]
    · simp [ixEntryModify, amGet, bucketOf, h, ih]

theorem ixEM_get_ne [DecidableEq I] (m : List (I × List (K × V))) (i : I)
    (f : List (K × V) → List (K × V) × B) {j : I} (hne : j ≠ i) :
    amGet (ixEntryModify m i f).1 j = amGet m j := by
  induction m with
  | nil => simp [ixEntryModify, amGet, hne]
  | cons p rest ih =>
    obtain ⟨j₀, b⟩ := p
    by_cases h : i = j₀
    · subst h
      simp [ixEntryModify, amGet, hne]
    · by_cases h' : j = j₀ <;> simp [ixEntryModify, amGet, h, h', ih]

theorem ixEM_snd [DecidableEq I] (m : List (I × List (K × V))) (i : I)
    (f : List (K × V) → List (K × V) × B) :
    (ixEntryModify m i f).2 = (f (bucketOf m i)).2 := by
  induction m with
  | nil => simp [ixEntryModify, bucketOf, amGet]
  | cons p rest ih =>
    obtain ⟨j, b⟩ := p
    by_cases h : i = j
    · subst h
      simp [ixEntryModify, bucketOf, amGet]
    · simp [ixEntryModify, bucketOf, amGet, h, ih]

theorem ixEM_map_fst [DecidableEq I] (m : List (I × List (K × V))) (i : I)
    (f : List (K × V) → List (K × V) × B) :
    (ixEntryModify m i f).1.map Prod.fst =
      if i ∈ m.map Prod.fst then m.map Prod.fst else m.map Prod.fst ++ [i] := by
  induction m with
  | nil => simp [ixEntryModify]
  | cons p rest ih =>
    obtain ⟨j, b⟩ := p
    by_cases h : i = j
    · subst h
      simp [ixEntryModify]
    · simp only [ixEntryModify, if_neg h, List.map_cons, List.mem_cons, ih]
      by_cases h' : i ∈ rest.map Prod.fst <;> simp [h, h']

theorem ixWF_bucketOf [DecidableEq K] [DecidableEq I] {ix : K → I}
    {m : List (I × List (K × V))} (hm : ixWF ix m) (i : I) :
    amWF (bucketOf m i) ∧ ∀ q ∈ bucketOf m i, ix q.1 = i := by
  unfold bucketOf
  cases hg : amGet m i with
  | some b =>
    have hb := hm.2 _ (amGet_mem hg)
    exact ⟨hb.1, hb.2⟩
  | none => exact ⟨List.nodup_nil, by simp⟩

theorem ixEM_mem [DecidableEq I] (m : List (I × List (K × V))) (i : I)
    (f : List (K × V) → List (K × V) × B) :
    ∀ p ∈ (ixEntryModify m i f).1, p ∈ m ∨ p = (i, (f (bucketOf m i)).1) := by
  induction m with
  | nil =>
    intro p hp
    simp only [ixEntryModify, List.mem_singleton] at hp
    exact Or.inr (by simp [hp, bucketOf, amGet])
  | cons p₀ rest ih =>
    obtain ⟨j, b⟩ := p₀
    intro p hp
    by_cases h : i = j
    · subst h
      simp only [ixEntryModify, if_pos, List.mem_cons, if_true, eq_self_iff_true,
        ite_true] at hp
      rcases hp with hp1 | hp2
      · exact Or.inr (by simp [hp1, bucketOf, amGet])
      · exact Or.inl (List.mem_cons_of_mem _ hp2)
    · simp only [ixEntryModify, if_neg h, List.mem_cons] at hp
      rcases hp with hp1 | hp2
      · exact Or.inl (by simp [hp1])
      · rcases ih p hp2 with h' | h'
        · exact Or.inl (List.mem_cons_of_mem _ h')
        · refine Or.inr ?_
          rw [h']
          simp [bucketOf, amGet, h]

theorem ixEM_WF [DecidableEq K] [DecidableEq I] {ix : K → I}
    {m : List (I × List (K × V))} {i : I}
    {f : List (K × V) → List (K × V) × B}
    (hf : ∀ b, amWF b → (∀ q ∈ b, ix q.1 = i) →
      amWF (f b).1 ∧ ∀ q ∈ (f b).1, ix q.1 = i)
    (hm : ixWF ix m) : ixWF ix (ixEntryModify m i f).1 := by
  constructor
  · unfold amWF
    rw [ixEM_map_fst]
    by_cases h : i ∈ m.map Prod.fst
    · simpa [h] using hm.1
    · simp only [if_neg h]
      exact List.Nodup.append hm.1 (List.nodup_singleton i) (by simpa using h)
  · intro p hp
    rcases ixEM_mem m i f p hp with h | h
    · exact hm.2 p h
    · obtain ⟨hb, hbix⟩ := ixWF_bucketOf hm i
      subst h
      exact hf _ hb hbix

theorem get_Indexed_eq [DecidableEq K] [DecidableEq I] (ix : K → I)
    (m : List (I × List (K × V))) (k : K) :
    InnerStorage.get ix (.Indexed m) k = amGet (bucketOf m (ix k)) k := by
  cases h : amGet m (ix k) with
  | none => simp [InnerStorage.get, bucketOf, h, amGet]
  | some b => simp [InnerStorage.get, bucketOf, h]

theorem has_key_eq_isSome [DecidableEq K] [DecidableEq I] (ix : K → I)
    (s : InnerStorage K V I) (k : K) :
    s.has_key ix k = (s.get ix k).isSome := by
  cases s with
  | Plain m => exact amContains_eq_isSome m k
  | Indexed m =>
    cases h : amGet m (ix k) with
    | none => simp [InnerStorage.get, InnerStorage.has_key, h]
    | some b => simp [InnerStorage.get, InnerStorage.has_key, h, amContains_eq_isSome]

theorem convertStep_get [DecidableEq K] [DecidableEq I] (ix : K → I)
    (m : List (I × List (K × V))) (k₀ : K) (v₀ : V) (k : K) :
    amGet (bucketOf (convertStep ix m (k₀, v₀)) (ix k)) k =
      if k = k₀ then some v₀ else amGet (bucketOf m (ix k)) k := by
  unfold convertStep
  by_cases hix : ix k = ix k₀
  · rw [hix]
    unfold bucketOf
    rw [ixEM_get_self]
    simp only [Option.getD_some]
    by_cases hk : k = k₀
    · subst hk
      simp [amInsert_get_self]
    · rw [if_neg hk, amInsert_get_ne _ _ _ hk]
      rfl
  · unfold bucketOf
    rw [ixEM_get_ne _ _ _ hix]
    have hk : k ≠ k₀ := fun h => hix (h ▸ rfl)
    rw [if_neg hk]

theorem convertStep_WF [DecidableEq K] [DecidableEq I] {ix : K → I}
    {m : List (I × List (K × V))} (hm : ixWF ix m) (k₀ : K) (v₀ : V) :
    ixWF ix (convertStep ix m (k₀, v₀)) := by
  unfold convertStep
  refine ixEM_WF ?_ hm
  intro b hb hbix
  refine ⟨amInsert_WF hb k₀ v₀, ?_⟩
  intro q hq
  have hq1 : q.1 ∈ (amInsert b k₀ v₀).1.map Prod.fst := List.mem_map_of_mem _ hq
  rw [amInsert_map_fst] at hq1
  have : q.1 ∈ b.map Prod.fst ∨ q.1 = k₀ := by
    by_cases h : k₀ ∈ b.map Prod.fst
    · rw [if_pos h] at hq1
      exact Or.inl hq1
    · rw [if_neg h] at hq1
      rcases List.mem_append.mp hq1 with h' | h'
      · exact Or.inl h'
      · exact Or.inr (List.mem_singleton.mp h')
  rcases this with h | h
  · obtain ⟨q', hq', hq'1⟩ := List.mem_map.mp h
    rw [← hq'1]
    exact hbix q' hq'
  · rw [h]

theorem foldl_convertStep_get [DecidableEq K] [DecidableEq I] (ix : K → I)
    {l : List (K × V)} (hl : amWF l) :
    ∀ (m : List (I × List (K × V))) (k : K),
      amGet (bucketOf (l.foldl (convertStep ix) m) (ix k)) k =
        (amGet l k).or (amGet (bucketOf m (ix k)) k) := by
  induction l with
  | nil => intro m k; simp [amGet]
  | cons p rest ih =>
    obtain ⟨k₀, v₀⟩ := p
    intro m k
    rw [List.foldl_cons, ih (amWF_cons hl) (convertStep ix m (k₀, v₀)) k,
      convertStep_get]
    by_cases hk : k = k₀
    · subst hk
      rw [if_pos rfl, amGet_eq_none_of_not_mem (amWF_cons_not_mem hl)]
      simp [amGet]
    · rw [if_neg hk]
      simp [amGet, hk]

theorem foldl_convertStep_WF [DecidableEq K] [DecidableEq I] {ix : K → I}
    (l : List (K × V)) :
    ∀ {m : List (I × List (K × V))}, ixWF ix m →
      ixWF ix (l.foldl (convertStep ix) m) := by
  induction l with
  | nil => intro m hm; exact hm
  | cons p rest ih =>
    obtain ⟨k₀, v₀⟩ := p
    intro m hm
    rw [List.foldl_cons]
    exact ih (convertStep_WF hm k₀ v₀)

theorem convert_get [DecidableEq K] [DecidableEq I] (ix : K → I)
    {l : List (K × V)} (hl : amWF l) (k : K) :
    amGet (bucketOf (convert ix l) (ix k)) k = amGet l k := by
  unfold convert
  rw [foldl_convertStep_get ix hl]
  simp [bucketOf, amGet]

theorem convert_WF [DecidableEq K] [DecidableEq I] (ix : K → I)
    (l : List (K × V)) : ixWF ix (convert ix l) :=
  foldl_convertStep_WF l ⟨List.nodup_nil, by simp⟩

theorem check_threshold_get [DecidableEq K] [DecidableEq I] {ix : K → I}
    {s : InnerStorage K V I} (hs : s.WF ix) (k : K) :
    (check_threshold ix s).get ix k = s.get ix k := by
  cases s with
  | Plain m =>
    by_cases h : m.length ≥ INDEX_THRESHOLD
    · have hct : check_threshold ix (.Plain m) = .Indexed (convert ix m) := by
        simp [check_threshold, h]
      rw [hct, get_Indexed_eq, convert_get ix hs]
      rfl
    · have hct : check_threshold (V := V) ix (.Plain m) = .Plain m := by
        simp [check_threshold, h]
      rw [hct]
  | Indexed m => rfl

theorem check_threshold_WF [DecidableEq K] [DecidableEq I] {ix : K → I}
    {s : InnerStorage K V I} (hs : s.WF ix) :
    (check_threshold ix s).WF ix := by
  cases s with
  | Plain m =>
    by_cases h : m.length ≥ INDEX_THRESHOLD
    · have hct : check_threshold ix (.Plain m) = .Indexed (convert ix m) := by
        simp [check_threshold, h]
      rw [hct]
      exact convert_WF ix m
    · have hct : check_threshold (V := V) ix (.Plain m) = .Plain m := by
        simp [check_threshold, h]
      rw [hct]
      exact hs
  | Indexed m => exact hs

theorem check_threshold_Indexed [DecidableEq K] [DecidableEq I] (ix : K → I)
    (m : List (I × List (K × V))) :
    check_threshold (V := V) ix (.Indexed m) = .Indexed m := rfl

theorem modifyMap_eq_Plain [DecidableEq K] [DecidableEq I] {ix : K → I}
    {s : InnerStorage K V I} {m : List (K × V)}
    (h : check_threshold ix s = .Plain m) (k : K)
    (f : List (K × V) → List (K × V) × B) :
    s.modifyMap ix k f = (.Plain (f m).1, (f m).2) := by
  unfold InnerStorage.modifyMap
  rw [h]

theorem modifyMap_eq_Indexed [DecidableEq K] [DecidableEq I] {ix : K → I}
    {s : InnerStorage K V I} {m : List (I × List (K × V))}
    (h : check_threshold ix s = .Indexed m) (k : K)
    (f : List (K × V) → List (K × V) × B) :
    s.modifyMap ix k f =
      (.Indexed (ixEntryModify m (ix k) f).1, (ixEntryModify m (ix k) f).2) := by
  unfold InnerStorage.modifyMap
  rw [h]

theorem modifyMap_get [DecidableEq K] [DecidableEq I] {ix : K → I}
    {s : InnerStorage K V I} (hs : s.WF ix) (k : K)
    {f : List (K × V) → List (K × V) × B} {g : Option V → Option V}
    (hself : ∀ m, amWF m → amGet (f m).1 k = g (amGet m k))
    (hne : ∀ m (k' : K), k' ≠ k → amGet (f m).1 k' = amGet m k')
    (k' : K) :
    (s.modifyMap ix k f).1.get ix k' =
      if k' = k then g (s.get ix k) else s.get ix k' := by
  cases hct : check_threshold ix s with
  | Plain m =>
    have hm : amWF m := by
      have h := check_threshold_WF hs
      rwa [hct] at h
    have hgm : ∀ k'' : K, amGet m k'' = s.get ix k'' := by
      intro k''
      have h := check_threshold_get hs k''
      rwa [hct] at h
    rw [modifyMap_eq_Plain hct k f]
    show amGet (f m).1 k' = _
    by_cases hk : k' = k
    · subst hk
      rw [if_pos rfl, hself m hm, hgm]
    · rw [if_neg hk, hne m k' hk, hgm]
  | Indexed m =>
    have hm : ixWF ix m := by
      have h := check_threshold_WF hs
      rwa [hct] at h
    have hgm : ∀ k'' : K, amGet (bucketOf m (ix k'')) k'' = s.get ix k'' := by
      intro k''
      have h := check_threshold_get hs k''
      rw [hct, get_Indexed_eq] at h
      exact h
    rw [modifyMap_eq_Indexed hct k f]
    show InnerStorage.get ix (.Indexed (ixEntryModify m (ix k) f).1) k' = _
    rw [get_Indexed_eq]
    by_cases hix : ix k' = ix k
    · have hb : bucketOf (ixEntryModify m (ix k) f).1 (ix k') =
          (f (bucketOf m (ix k))).1 := by
        rw [hix]
        unfold bucketOf
        rw [ixEM_get_self]
        rfl
      rw [hb]
      have hbWF : amWF (bucketOf m (ix k)) := (ixWF_bucketOf hm (ix k)).1
      by_cases hk : k' = k
      · subst hk
        rw [if_pos rfl, hself _ hbWF, hgm k']
      · rw [if_neg hk, hne _ k' hk, ← hix, hgm k']
    · have hk : k' ≠ k := fun h => hix (by rw [h])
      rw [if_neg hk]
      unfold bucketOf
      rw [ixEM_get_ne m (ix k) f hix]
      exact hgm k'

theorem modifyMap_WF [DecidableEq K] [DecidableEq I] {ix : K → I}
    {s : InnerStorage K V I} (hs : s.WF ix) (k : K)
    {f : List (K × V) → List (K × V) × B}
    (hWF : ∀ m, amWF m → amWF (f m).1)
    (hkeys : ∀ m x, x ∈ (f m).1.map Prod.fst → x ∈ m.map Prod.fst ∨ x = k) :
    (s.modifyMap ix k f).1.WF ix := by
  cases hct : check_threshold ix s with
  | Plain m =>
    have hm : amWF m := by
      have h := check_threshold_WF hs
      rwa [hct] at h
    rw [modifyMap_eq_Plain hct k f]
    exact hWF m hm
  | Indexed m =>
    have hm : ixWF ix m := by
      have h := check_threshold_WF hs
      rwa [hct] at h
    rw [modifyMap_eq_Indexed hct k f]
    show ixWF ix (ixEntryModify m (ix k) f).1
    refine ixEM_WF ?_ hm
    intro b hb hbix
    refine ⟨hWF b hb, ?_⟩
    intro q hq
    rcases hkeys b q.1 (List.mem_map_of_mem _ hq) with h | h
    · obtain ⟨q', hq', he⟩ := List.mem_map.mp h
      rw [← he]
      exact hbix q' hq'
    · rw [h]

theorem modifyMap_snd [DecidableEq K] [DecidableEq I] {ix : K → I}
    {s : InnerStorage K V I} (hs : s.WF ix) (k : K)
    {f : List (K × V) → List (K × V) × B} {h : Option V → B}
    (hsnd : ∀ m, amWF m → (f m).2 = h (amGet m k)) :
    (s.modifyMap ix k f).2 = h (s.get ix k) := by
  cases hct : check_threshold ix s with
  | Plain m =>
    have hm : amWF m := by
      have h' := check_threshold_WF hs
      rwa [hct] at h'
    have hgm : amGet m k = s.get ix k := by
      have h' := check_threshold_get hs k
      rwa [hct] at h'
    rw [modifyMap_eq_Plain hct k f]
    show (f m).2 = _
    rw [hsnd m hm, hgm]
  | Indexed m =>
    have hm : ixWF ix m := by
      have h' := check_threshold_WF hs
      rwa [hct] at h'
    have hgm : amGet (bucketOf m (ix k)) k = s.get ix k := by
      have h' := check_threshold_get hs k
      rw [hct, get_Indexed_eq] at h'
      exact h'
    rw [modifyMap_eq_Indexed hct k f]
    show (ixEntryModify m (ix k) f).2 = _
    rw [ixEM_snd, hsnd _ (ixWF_bucketOf hm (ix k)).1, hgm]

theorem modifyMap_is_indexed [DecidableEq K] [DecidableEq I] (ix : K → I)
    (s : InnerStorage K V I) (k : K)
    (f : List (K × V) → List (K × V) × B)
    (h : s.is_indexed = true) : (s.modifyMap ix k f).1.is_indexed = true := by
  cases s with
  | Plain m => simp [InnerStorage.is_indexed] at h
  | Indexed m =>
    rw [modifyMap_eq_Indexed (check_threshold_Indexed ix m) k f]
    rfl

theorem insert_get [DecidableEq K] [DecidableEq I] {ix : K → I}
    {s : InnerStorage K V I} (hs : s.WF ix) (k : K) (v : V) (k' : K) :
    (s.insert ix k v).1.get ix k' =
      if k' = k then some v else s.get ix k' :=
  modifyMap_get hs k (g := fun _ => some v)
    (fun m _ => amInsert_get_self m k v)
    (fun m k' hk => amInsert_get_ne m k v hk) k'

theorem insert_snd [DecidableEq K] [DecidableEq I] {ix : K → I}
    {s : InnerStorage K V I} (hs : s.WF ix) (k : K) (v : V) :
    (s.insert ix k v).2 = s.get ix k :=
  modifyMap_snd hs k (h := id) (fun m _ => amInsert_snd m k v)

theorem insert_WF [DecidableEq K] [DecidableEq I] {ix : K → I}
    {s : InnerStorage K V I} (hs : s.WF ix) (k : K) (v : V) :
    (s.insert ix k v).1.WF ix := by
  refine modifyMap_WF hs k (fun m hm => amInsert_WF hm k v) ?_
  intro m x hx
  rw [amInsert_map_fst] at hx
  by_cases h : k ∈ m.map Prod.fst
  · rw [if_pos h] at hx
    exact Or.inl hx
  · rw [if_neg h] at hx
    rcases List.mem_append.mp hx with h' | h'
    · exact Or.inl h'
    · exact Or.inr (List.mem_singleton.mp h')

theorem remove_get [DecidableEq K] [DecidableEq I] {ix : K → I}
    {s : InnerStorage K V I} (hs : s.WF ix) (k : K) (k' : K) :
    (s.remove ix k).1.get ix k' =
      if k' = k then none else s.get ix k' :=
  modifyMap_get hs k (g := fun _ => none)
    (fun m hm => amRemove_get_self hm k)
    (fun m k' hk => amRemove_get_ne m k hk) k'

theorem remove_snd [DecidableEq K] [DecidableEq I] {ix : K → I}
    {s : InnerStorage K V I} (hs : s.WF ix) (k : K) :
    (s.remove ix k).2 = s.get ix k :=
  modifyMap_snd hs k (h := id) (fun m _ => amRemove_snd m k)

theorem remove_WF [DecidableEq K] [DecidableEq I] {ix : K → I}
    {s : InnerStorage K V I} (hs : s.WF ix) (k : K) :
    (s.remove ix k).1.WF ix :=
  modifyMap_WF hs k (fun m hm => amRemove_WF hm k)
    (fun m x hx => Or.inl ((amRemove_map_fst_sublist m k).subset hx))

theorem updateWith_get [DecidableEq K] [DecidableEq I] {ix : K → I}
    {s : InnerStorage K V I} (hs : s.WF ix) (k : K)
    (f : Option V → Option V × B) (k' : K) :
    (s.updateWith ix k f).1.get ix k' =
      if k' = k then (f (s.get ix k)).1 else s.get ix k' :=
  modifyMap_get hs k (g := fun o => (f o).1)
    (fun m hm => amUpdate_get_self hm k f)
    (fun m k' hk => amUpdate_get_ne m k f hk) k'

theorem updateWith_snd [DecidableEq K] [DecidableEq I] {ix : K → I}
    {s : InnerStorage K V I} (hs : s.WF ix) (k : K)
    (f : Option V → Option V × B) :
    (s.updateWith ix k f).2 = (f (s.get ix k)).2 :=
  modifyMap_snd hs k (h := fun o => (f o).2) (fun m _ => amUpdate_snd m k f)

theorem updateWith_WF [DecidableEq K] [DecidableEq I] {ix : K → I}
    {s : InnerStorage K V I} (hs : s.WF ix) (k : K)
    (f : Option V → Option V × B) : (s.updateWith ix k f).1.WF ix :=
  modifyMap_WF hs k (fun m hm => amUpdate_WF hm k f)
    (fun m x hx => amUpdate_map_fst_subset m k f x hx)

theorem mem_iter_all_iff [DecidableEq K] [DecidableEq I] {ix : K → I}
    {s : InnerStorage K V I} (hs : s.WF ix) (k : K) (v : V) :
    (k, v) ∈ s.iter_all ↔ s.get ix k = some v := by
  cases s with
  | Plain m => exact mem_iff_amGet hs k v
  | Indexed m =>
    rw [get_Indexed_eq]
    unfold InnerStorage.iter_all
    rw [List.mem_flatten]
    constructor
    · rintro ⟨b, hb, hkv⟩
      obtain ⟨p, hp, hpb⟩ := List.mem_map.mp hb
      subst hpb
      have hpWF := hs.2 p hp
      have hixk : ix k = p.1 := hpWF.2 (k, v) hkv
      have hbk : amGet m p.1 = some p.2 := by
        have : (p.1, p.2) ∈ m := hp
        exact mem_amGet hs.1 this
      unfold bucketOf
      rw [hixk, hbk]
      exact mem_amGet hpWF.1 hkv
    · intro h
      unfold bucketOf at h
      cases hg : amGet m (ix k) with
      | none => rw [hg] at h; simp [amGet] at h
      | some b =>
        rw [hg] at h
        refine ⟨b, ?_, amGet_mem h⟩
        exact List.mem_map_of_mem Prod.snd (amGet_mem hg)

theorem iter_Plain_eq_iter_all [DecidableEq I] (m : List (K × V)) (i : I) :
    InnerStorage.iter (.Plain m : InnerStorage K V I) i =
      InnerStorage.iter_all (.Plain m : InnerStorage K V I) := rfl

theorem mem_iter_Indexed_iff [DecidableEq K] [DecidableEq I] {ix : K → I}
    {m : List (I × List (K × V))} (hm : ixWF ix m) (i : I) (k : K) (v : V) :
    (k, v) ∈ InnerStorage.iter (.Indexed m) i ↔
      ((k, v) ∈ InnerStorage.iter_all (.Indexed m) ∧ ix k = i) := by
  constructor
  · intro h
    cases hg : amGet m i with
    | none => simp [InnerStorage.iter, hg] at h
    | some b =>
      rw [show InnerStorage.iter (.Indexed m) i = b by simp [InnerStorage.iter, hg]] at h
      have hpb : (i, b) ∈ m := amGet_mem hg
      have hixk : ix k = i := (hm.2 (i, b) hpb).2 (k, v) h
      refine ⟨?_, hixk⟩
      unfold InnerStorage.iter_all
      rw [List.mem_flatten]
      exact ⟨b, List.mem_map_of_mem Prod.snd hpb, h⟩
  · rintro ⟨hall, hixk⟩
    have hget : InnerStorage.get ix (.Indexed m) k = some v :=
      (mem_iter_all_iff (s := .Indexed m)
        (show InnerStorage.WF ix (.Indexed m) from hm) k v).mp hall
    rw [get_Indexed_eq] at hget
    unfold bucketOf at hget
    rw [hixk] at hget
    cases hg : amGet m i with
    | none => rw [hg] at hget; simp [amGet] at hget
    | some b =>
      rw [hg] at hget
      rw [show InnerStorage.iter (.Indexed m) i = b by simp [InnerStorage.iter, hg]]
      exact amGet_mem hget

theorem iter_all_keys_nodup [DecidableEq K] [DecidableEq I] {ix : K → I}
    {s : InnerStorage K V I} (hs : s.WF ix) :
    (s.iter_all.map Prod.fst).Nodup := by
  cases s with
  | Plain m => exact hs
  | Indexed m =>
    unfold InnerStorage.iter_all
    rw [List.map_flatten, List.map_map, List.nodup_flatten]
    constructor
    · intro l hl
      obtain ⟨p, hp, he⟩ := List.mem_map.mp hl
      rw [← he]
      exact (hs.2 p hp).1
    · refine List.pairwise_map.mpr ?_
      have hpair : m.Pairwise (fun p q => p.1 ≠ q.1) := List.pairwise_map.mp hs.1
      refine hpair.imp_of_mem ?_
      intro p q hpm hqm hpq
      intro x hxp hxq
      obtain ⟨a, ha, hea⟩ := List.mem_map.mp hxp
      obtain ⟨b', hb', heb⟩ := List.mem_map.mp hxq
      apply hpq
      rw [← (hs.2 p hpm).2 a ha, ← (hs.2 q hqm).2 b' hb', hea, heb]

theorem mem_iter_iff_of_ix [DecidableEq K] [DecidableEq I] {ix : K → I}
    {s : InnerStorage K V I} (hs : s.WF ix) {i : I} {k : K} (hk : ix k = i)
    (v : V) : (k, v) ∈ s.iter i ↔ s.get ix k = some v := by
  cases s with
  | Plain m => exact mem_iff_amGet hs k v
  | Indexed m =>
    rw [mem_iter_Indexed_iff hs i k v]
    constructor
    · intro h
      exact (mem_iter_all_iff (s := .Indexed m)
        (show InnerStorage.WF ix (.Indexed m) from hs) k v).mp h.1
    · intro h
      exact ⟨(mem_iter_all_iff (s := .Indexed m)
        (show InnerStorage.WF ix (.Indexed m) from hs) k v).mpr h, hk⟩

theorem applyContent_snd {D : Type} {s : TaskStore D}
    (hs : s.WF CKey.kindIndex) (cell : CellId) (content : Option D) :
    (applyContent s cell content).2 = s.get CKey.kindIndex (.cellData cell) := by
  cases content with
  | some v => exact insert_snd hs _ _
  | none => exact remove_snd hs _

theorem applyContent_get {D : Type} {s : TaskStore D}
    (hs : s.WF CKey.kindIndex) (cell : CellId) (content : Option D)
    (k' : CKey) :
    (applyContent s cell content).1.get CKey.kindIndex k' =
      if k' = .cellData cell then content.map CValue.cellData
      else s.get CKey.kindIndex k' := by
  cases content with
  | some v => exact insert_get hs _ _ k'
  | none => exact remove_get hs _ k'

theorem applyContent_WF {D : Type} {s : TaskStore D}
    (hs : s.WF CKey.kindIndex) (cell : CellId) (content : Option D) :
    (applyContent s cell content).1.WF CKey.kindIndex := by
  cases content with
  | some v => exact insert_WF hs _ _
  | none => exact remove_WF hs _

theorem run_store_eq {D : Type} (s : TaskStore D) (cell : CellId)
    (content : Option D) :
    (UpdateCellOperation.run s cell content).store =
      ((applyContent s cell content).1.remove CKey.kindIndex
        (.inProgressCell cell)).1 := by
  simp only [UpdateCellOperation.run]
  split <;> rfl

theorem run_notified_eq {D : Type} (s : TaskStore D) (cell : CellId)
    (content : Option D) :
    (UpdateCellOperation.run s cell content).notified =
      match ((applyContent s cell content).1.remove CKey.kindIndex
        (.inProgressCell cell)).2 with
      | some (CValue.inProgressCell e) => some (e, USIZE_MAX)
      | _ => none := by
  simp only [UpdateCellOperation.run]
  split <;> rfl

theorem run_invalidated_eq {D : Type} (s : TaskStore D) (cell : CellId)
    (content : Option D) :
    (UpdateCellOperation.run s cell content).invalidated =
      if ((applyContent s cell content).2.isNone &&
          !(((applyContent s cell content).1.remove CKey.kindIndex
            (.inProgressCell cell)).1.has_key CKey.kindIndex .dirty)) = true
      then none
      else some
        (((((applyContent s cell content).1.remove CKey.kindIndex
            (.inProgressCell cell)).1).iter CKind.cellDependent).filterMap
          (fun p =>
            match p with
            | (CKey.cellDependent dc t, CValue.cellDependent) =>
              if dc = cell then some t else none
            | _ => none)) := by
  simp only [UpdateCellOperation.run]
  split <;> rfl

theorem run_store_WF {D : Type} {s : TaskStore D} (hs : s.WF CKey.kindIndex)
    (cell : CellId) (content : Option D) :
    (UpdateCellOperation.run s cell content).store.WF CKey.kindIndex := by
  rw [run_store_eq]
  exact remove_WF (applyContent_WF hs cell content) _

theorem run_store_get {D : Type} {s : TaskStore D} (hs : s.WF CKey.kindIndex)
    (cell : CellId) (content : Option D) (k' : CKey) :
    (UpdateCellOperation.run s cell content).store.get CKey.kindIndex k' =
      if k' = .inProgressCell cell then none
      else if k' = .cellData cell then content.map CValue.cellData
      else s.get CKey.kindIndex k' := by
  rw [run_store_eq, remove_get (applyContent_WF hs cell content) _ k',
    applyContent_get hs cell content k']

theorem run_marker_removed {D : Type} {s : TaskStore D}
    (hs : s.WF CKey.kindIndex) (cell : CellId) (content : Option D) :
    (UpdateCellOperation.run s cell content).store.has_key CKey.kindIndex
      (.inProgressCell cell) = false := by
  rw [has_key_eq_isSome, run_store_get hs cell content, if_pos rfl]
  rfl

theorem run_notified_of_marker {D : Type} {s : TaskStore D}
    (hs : s.WF CKey.kindIndex) (cell : CellId) (content : Option D)
    (e : Event)
    (he : s.get CKey.kindIndex (.inProgressCell cell) =
      some (.inProgressCell e)) :
    (UpdateCellOperation.run s cell content).notified = some (e, USIZE_MAX) := by
  rw [run_notified_eq]
  have hsnd : ((applyContent s cell content).1.remove CKey.kindIndex
      (.inProgressCell cell)).2 = some (CValue.inProgressCell e) := by
    rw [remove_snd (applyContent_WF hs cell content) _,
      applyContent_get hs cell content _, if_neg (by intro h; cases h), he]
  rw [hsnd]

theorem depFilter_eq_some {D : Type} (cell : CellId) (p : CKey × CValue D)
    (t : Nat) :
    (match p with
      | (CKey.cellDependent dc t', CValue.cellDependent) =>
        if dc = cell then some t' else none
      | _ => none) = some t ↔
      p = (CKey.cellDependent cell t, CValue.cellDependent) := by
  obtain ⟨k, v⟩ := p
  cases k with
  | cellData c => cases v <;> simp
  | inProgressCell c => cases v <;> simp
  | dirty => cases v <;> simp
  | cellDependent dc t' =>
    cases v with
    | cellData d => simp
    | inProgressCell e => simp
    | dirty => simp
    | cellDependent =>
      show (if dc = cell then some t' else none) = some t ↔ _
      by_cases hc : dc = cell
      · subst hc
        rw [if_pos rfl]
        simp
      · rw [if_neg hc]
        simp [hc]

theorem run_invalidated_some {D : Type} {s : TaskStore D}
    (hs : s.WF CKey.kindIndex) (htyped : TypedStore s) (cell : CellId)
    (content : Option D)
    (hnot : ¬(s.get CKey.kindIndex (.cellData cell) = none ∧
      s.has_key CKey.kindIndex .dirty = false)) :
    ∃ deps, (UpdateCellOperation.run s cell content).invalidated = some deps ∧
      ∀ t : Nat, t ∈ deps ↔
        s.has_key CKey.kindIndex (.cellDependent cell t) = true := by
  have hs1WF := applyContent_WF hs cell content
  have hs2WF := remove_WF hs1WF (CKey.inProgressCell cell)
  have hget2 : ∀ k' : CKey, k' ≠ .inProgressCell cell → k' ≠ .cellData cell →
      ((applyContent s cell content).1.remove CKey.kindIndex
        (.inProgressCell cell)).1.get CKey.kindIndex k' =
        s.get CKey.kindIndex k' := by
    intro k' h1 h2
    rw [remove_get hs1WF _ k', if_neg h1, applyContent_get hs cell content k',
      if_neg h2]
  have hdirty2 : ((applyContent s cell content).1.remove CKey.kindIndex
      (.inProgressCell cell)).1.has_key CKey.kindIndex .dirty =
      s.has_key CKey.kindIndex .dirty := by
    rw [has_key_eq_isSome, has_key_eq_isSome,
      hget2 .dirty (by intro h; cases h) (by intro h; cases h)]
  have hcond : ((applyContent s cell content).2.isNone &&
      !(((applyContent s cell content).1.remove CKey.kindIndex
        (.inProgressCell cell)).1.has_key CKey.kindIndex .dirty)) = false := by
    rw [applyContent_snd hs cell content, hdirty2]
    cases hg : s.get CKey.kindIndex (.cellData cell) with
    | some u => simp
    | none =>
      have hd : s.has_key CKey.kindIndex .dirty = true := by
        by_contra h
        exact hnot ⟨hg, by simpa using h⟩
      rw [hd]
      simp
  rw [run_invalidated_eq, hcond, if_neg (by simp)]
  refine ⟨_, rfl, ?_⟩
  intro t
  rw [List.mem_filterMap]
  constructor
  · rintro ⟨p, hp, hfp⟩
    have hpe := (depFilter_eq_some cell p t).mp hfp
    subst hpe
    have hget := (mem_iter_iff_of_ix hs2WF rfl _).mp hp
    rw [hget2 _ (by intro h; cases h) (by intro h; cases h)] at hget
    rw [has_key_eq_isSome, hget]
    rfl
  · intro hhk
    refine ⟨(CKey.cellDependent cell t, CValue.cellDependent), ?_, ?_⟩
    · rw [has_key_eq_isSome] at hhk
      cases hv : s.get CKey.kindIndex (.cellDependent cell t) with
      | none => rw [hv] at hhk; cases hhk
      | some v =>
        have hmem : (CKey.cellDependent cell t, v) ∈ s.iter_all :=
          (mem_iter_all_iff hs _ v).mpr hv
        have hmatch := htyped _ hmem
        cases v with
        | cellDependent =>
          refine (mem_iter_iff_of_ix hs2WF rfl _).mpr ?_
          rw [hget2 _ (by intro h; cases h) (by intro h; cases h)]
          exact hv
        | cellData d => exact absurd hmatch (by simp [kindMatches])
        | inProgressCell e => exact absurd hmatch (by simp [kindMatches])
        | dirty => exact absurd hmatch (by simp [kindMatches])
    · simp

/-- C4: when a flat per-task record store holding at least
`INDEX_THRESHOLD` records (no duplicate keys) undergoes the lazy
flat-to-indexed rebuild of `check_threshold`, the store becomes indexed and
`iter_all` yields the same set of (key, value) pairs as before, each key
still occurring exactly once. -/
theorem C4_conversion_preserves_records [DecidableEq K] [DecidableEq I]
    (ix : K → I) {m : List (K × V)} (hm : amWF m)
    (hlen : m.length ≥ INDEX_THRESHOLD) :
    (check_threshold ix (.Plain m)).is_indexed = true ∧
    (∀ kv : K × V, kv ∈ (check_threshold ix (.Plain m)).iter_all ↔
      kv ∈ (InnerStorage.Plain m : InnerStorage K V I).iter_all) ∧
    ((check_threshold ix (.Plain m)).iter_all.map Prod.fst).Nodup := by
  have hct : check_threshold ix (.Plain m) = .Indexed (convert ix m) := by
    simp [check_threshold, hlen]
  rw [hct]
  refine ⟨rfl, ?_, ?_⟩
  · rintro ⟨k, v⟩
    rw [mem_iter_all_iff (s := .Indexed (convert ix m))
      (show InnerStorage.WF ix (.Indexed (convert ix m)) from convert_WF ix m) k v,
      get_Indexed_eq, convert_get ix hm k]
    exact (mem_iff_amGet hm k v).symm
  · exact iter_all_keys_nodup (s := .Indexed (convert ix m)) (convert_WF ix m)

/-- C5: once a per-task record store is indexed, `iter(i)` yields exactly
the records whose computed index is `i`; while still flat, `iter(i)` yields
all records regardless of `i`. -/
theorem C5_iter_index_scoped [DecidableEq K] [DecidableEq I] {ix : K → I}
    {s : InnerStorage K V I} (hs : s.WF ix) :
    (s.is_indexed = true → ∀ (i : I) (k : K) (v : V),
      (k, v) ∈ s.iter i ↔ ((k, v) ∈ s.iter_all ∧ ix k = i)) ∧
    (s.is_indexed = false → ∀ i : I, s.iter i = s.iter_all) := by
  cases s with
  | Plain m =>
    exact ⟨fun h => Bool.noConfusion h, fun _ i => rfl⟩
  | Indexed m =>
    exact ⟨fun _ i k v => mem_iter_Indexed_iff hs i k v,
      fun h => Bool.noConfusion h⟩

/-- C6: the flat-to-indexed transition is monotonic: an indexed store stays
indexed across every sequence of store operations. -/
theorem C6_indexed_monotone [DecidableEq K] [DecidableEq I] (ix : K → I)
    (ops : List (StoreOp K V I)) {s : InnerStorage K V I}
    (h : s.is_indexed = true) : (applyOps ix s ops).is_indexed = true := by
  induction ops generalizing s with
  | nil => exact h
  | cons op rest ih =>
    rw [applyOps, List.foldl_cons]
    refine ih ?_
    cases op with
    | add k v => exact modifyMap_is_indexed ix s k _ h
    | insert k v => exact modifyMap_is_indexed ix s k _ h
    | remove k => exact modifyMap_is_indexed ix s k _ h
    | update k f => exact modifyMap_is_indexed ix s k _ h
    | get k => exact h
    | has_key k => exact h
    | iter i => exact h
    | iter_all => exact h

/-- C7: inserting an absent key and then removing it leaves the store
observationally indistinguishable from the original through `get`,
`has_key` and `iter_all`, for every well-formed starting state (including
states where either mutation crosses the indexing threshold). -/
theorem C7_insert_remove_round_trip [DecidableEq K] [DecidableEq I]
    {ix : K → I} {s : InnerStorage K V I} (hs : s.WF ix) {k : K}
    (hk : s.has_key ix k = false) (v : V) :
    (∀ k' : K, (((s.insert ix k v).1.remove ix k).1).get ix k' =
      s.get ix k') ∧
    (∀ k' : K, (((s.insert ix k v).1.remove ix k).1).has_key ix k' =
      s.has_key ix k') ∧
    (∀ kv : K × V, kv ∈ (((s.insert ix k v).1.remove ix k).1).iter_all ↔
      kv ∈ s.iter_all) := by
  have hs1 : (s.insert ix k v).1.WF ix := insert_WF hs k v
  have hs2 : ((s.insert ix k v).1.remove ix k).1.WF ix := remove_WF hs1 k
  have hknone : s.get ix k = none := by
    rw [has_key_eq_isSome] at hk
    cases hg : s.get ix k with
    | none => rfl
    | some u => rw [hg] at hk; cases hk
  have hget : ∀ k' : K, (((s.insert ix k v).1.remove ix k).1).get ix k' =
      s.get ix k' := by
    intro k'
    rw [remove_get hs1 k k']
    by_cases h : k' = k
    · subst h
      rw [if_pos rfl, hknone]
    · rw [if_neg h, insert_get hs k v k', if_neg h]
  refine ⟨hget, ?_, ?_⟩
  · intro k'
    rw [has_key_eq_isSome, has_key_eq_isSome, hget k']
  · intro kv
    obtain ⟨k', v'⟩ := kv
    rw [mem_iter_all_iff hs2 k' v', mem_iter_all_iff hs k' v', hget k']

/-- C9 (amended for 32-bit counter arithmetic): `update_count` keeps stored
counts nonzero (removing a record whose updated count reaches zero and
creating none when an absent count is adjusted by zero), and returns `true`
exactly when the count's positivity changes, where the updated count is the
release-mode wrapping 32-bit sum `wrap32 (old + delta)`: for a present
count `old`, when `old ≤ 0 < wrap32 (old + delta)` or
`old > 0 ≥ wrap32 (old + delta)`; for an absent count, when `delta > 0`. -/
theorem C9_update_count_invariant [DecidableEq K] [DecidableEq I]
    {ix : K → I} {s : InnerStorage K Int I} (hs : s.WF ix) (k : K)
    (delta : Int) :
    ((∀ k' : K, s.get ix k' ≠ some 0) →
      ∀ k' : K, (update_count ix s k delta).1.get ix k' ≠ some 0) ∧
    (s.get ix k = none → delta = 0 →
      (update_count ix s k delta).1.get ix k = none) ∧
    (∀ old : Int, s.get ix k = some old → wrap32 (old + delta) = 0 →
      (update_count ix s k delta).1.get ix k = none) ∧
    (s.get ix k = none →
      ((update_count ix s k delta).2 = true ↔ delta > 0)) ∧
    (∀ old : Int, s.get ix k = some old →
      ((update_count ix s k delta).2 = true ↔
        (old ≤ 0 ∧ wrap32 (old + delta) > 0) ∨
        (old > 0 ∧ wrap32 (old + delta) ≤ 0))) := by
  have hget : ∀ k' : K, (update_count ix s k delta).1.get ix k' =
      if k' = k then
        (match s.get ix k with
          | some o =>
            (if wrap32 (o + delta) ≠ 0 then some (wrap32 (o + delta)) else none,
              decide ((o ≤ 0 ∧ wrap32 (o + delta) > 0) ∨
                (o > 0 ∧ wrap32 (o + delta) ≤ 0)))
          | none =>
            (if delta ≠ 0 then some delta else none, decide (delta > 0))).1
      else s.get ix k' := by
    intro k'
    exact updateWith_get hs k _ k'
  have hsnd : (update_count ix s k delta).2 =
      (match s.get ix k with
        | some o =>
          (if wrap32 (o + delta) ≠ 0 then some (wrap32 (o + delta)) else none,
            decide ((o ≤ 0 ∧ wrap32 (o + delta) > 0) ∨
              (o > 0 ∧ wrap32 (o + delta) ≤ 0)))
        | none =>
          (if delta ≠ 0 then some delta else none, decide (delta > 0))).2 :=
    updateWith_snd hs k _
  refine ⟨?_, ?_, ?_, ?_, ?_⟩
  · intro hz k'
    rw [hget k']
    by_cases h : k' = k
    · rw [if_pos h]
      cases hg : s.get ix k with
      | some o =>
        show (if wrap32 (o + delta) ≠ 0 then some (wrap32 (o + delta))
          else none) ≠ some 0
        by_cases hn : wrap32 (o + delta) ≠ 0
        · rw [if_pos hn]
          intro hcontra
          exact hn (Option.some_inj.mp hcontra)
        · rw [if_neg hn]
          intro hcontra
          cases hcontra
      | none =>
        show (if delta ≠ 0 then some delta else none) ≠ some 0
        by_cases hn : delta ≠ 0
        · rw [if_pos hn]
          intro hcontra
          exact hn (Option.some_inj.mp hcontra)
        · rw [if_neg hn]
          intro hcontra
          cases hcontra
    · rw [if_neg h]
      exact hz k'
  · intro hg hd
    rw [hget k, if_pos rfl, hg, hd]
    simp
  · intro old hg hzero
    rw [hget k, if_pos rfl, hg]
    simp [hzero]
  · intro hg
    rw [hsnd, hg]
    simp
  · intro old hg
    rw [hsnd, hg]
    simp

/-- C1: when no previous Cell Content record exists for the cell and the
task carries no Dirty Flag, `UpdateCellOperation::run` performs zero
invalidation calls, while the Apply step (the new content is stored, or
removed when absent) and the Release-waiters step (the In-Progress Cell
Marker is removed and its handle notified with `usize::MAX`) still take
effect. -/
theorem C1_short_circuit_skips_invalidation {D : Type} (s : TaskStore D)
    (cell : CellId) (content : Option D)
    (hWF : s.WF CKey.kindIndex)
    (hprev : s.get CKey.kindIndex (.cellData cell) = none)
    (hdirty : s.has_key CKey.kindIndex .dirty = false) :
    (UpdateCellOperation.run s cell content).invalidated = none ∧
    (UpdateCellOperation.run s cell content).store.get CKey.kindIndex
      (.cellData cell) = content.map CValue.cellData ∧
    (UpdateCellOperation.run s cell content).store.has_key CKey.kindIndex
      (.inProgressCell cell) = false ∧
    ∀ e : Event, s.get CKey.kindIndex (.inProgressCell cell) =
      some (.inProgressCell e) →
      (UpdateCellOperation.run s cell content).notified =
        some (e, USIZE_MAX) := by
  have hs1WF := applyContent_WF hWF cell content
  have hdirty2 : ((applyContent s cell content).1.remove CKey.kindIndex
      (.inProgressCell cell)).1.has_key CKey.kindIndex .dirty = false := by
    rw [has_key_eq_isSome, remove_get hs1WF _ _, if_neg (by intro h; cases h),
      applyContent_get hWF cell content _, if_neg (by intro h; cases h),
      ← has_key_eq_isSome]
    exact hdirty
  refine ⟨?_, ?_, ?_, ?_⟩
  · rw [run_invalidated_eq, applyContent_snd hWF cell content, hprev, hdirty2]
    simp
  · rw [run_store_get hWF cell content, if_neg (by intro h; cases h),
      if_pos rfl]
  · exact run_marker_removed hWF cell content
  · intro e he
    exact run_notified_of_marker hWF cell content e he

/-- C2: when `UpdateCellOperation::run` does not take the short-circuit,
the Invalidation Operation is invoked with exactly the task identifiers
appearing in the task's Cell Dependent records for this cell: no dependent
of a different cell is included and no dependent of this cell is
omitted. -/
theorem C2_invalidation_set_exact {D : Type} (s : TaskStore D)
    (cell : CellId) (content : Option D)
    (hWF : s.WF CKey.kindIndex) (htyped : TypedStore s)
    (hnot : ¬(s.get CKey.kindIndex (.cellData cell) = none ∧
      s.has_key CKey.kindIndex .dirty = false)) :
    ∃ deps, (UpdateCellOperation.run s cell content).invalidated = some deps ∧
      ∀ t : Nat, t ∈ deps ↔
        s.has_key CKey.kindIndex (.cellDependent cell t) = true :=
  run_invalidated_some hWF htyped cell content hnot

/-- C3: `UpdateCellOperation::run` never compares the old and the new cell
value: when a Cell Content record already exists or the task carries a
Dirty Flag, writing any value — in particular one equal to the currently
stored value — triggers an invalidation call whose task set is the same as
for any other written value. -/
theorem C3_no_value_comparison {D : Type} (s : TaskStore D) (cell : CellId)
    (hWF : s.WF CKey.kindIndex) (htyped : TypedStore s)
    (hfull : s.get CKey.kindIndex (.cellData cell) ≠ none ∨
      s.has_key CKey.kindIndex .dirty = true)
    (v w : D) :
    ∃ d₁ d₂, (UpdateCellOperation.run s cell (some v)).invalidated = some d₁ ∧
      (UpdateCellOperation.run s cell (some w)).invalidated = some d₂ ∧
      ∀ t : Nat, t ∈ d₁ ↔ t ∈ d₂ := by
  have hnot : ¬(s.get CKey.kindIndex (.cellData cell) = none ∧
      s.has_key CKey.kindIndex .dirty = false) := by
    rintro ⟨h1, h2⟩
    rcases hfull with h | h
    · exact h h1
    · rw [h2] at h
      cases h
  obtain ⟨d₁, hd₁, hiff₁⟩ := run_invalidated_some hWF htyped cell (some v) hnot
  obtain ⟨d₂, hd₂, hiff₂⟩ := run_invalidated_some hWF htyped cell (some w) hnot
  refine ⟨d₁, d₂, hd₁, hd₂, ?_⟩
  intro t
  rw [hiff₁ t, hiff₂ t]

/-- C8: every `UpdateCellOperation::run` call — content present or absent,
short-circuit or invalidation path — removes the In-Progress Cell Marker
for the cell when one exists (none remains afterwards) and signals its wait
handle with `notify(usize::MAX)`, releasing every blocked waiter. -/
theorem C8_waiters_released {D : Type} (s : TaskStore D) (cell : CellId)
    (content : Option D) (hWF : s.WF CKey.kindIndex) :
    (UpdateCellOperation.run s cell content).store.has_key CKey.kindIndex
      (.inProgressCell cell) = false ∧
    ∀ e : Event, s.get CKey.kindIndex (.inProgressCell cell) =
      some (.inProgressCell e) →
      (UpdateCellOperation.run s cell content).notified =
        some (e, USIZE_MAX) ∧
      (e.waiters ≤ USIZE_MAX → e.waitersAfterNotify USIZE_MAX = 0) := by
  refine ⟨run_marker_removed hWF cell content, ?_⟩
  intro e he
  refine ⟨run_notified_of_marker hWF cell content e he, ?_⟩
  intro hbound
  unfold Event.waitersAfterNotify
  omega

/-- Witness for C1: a first write to an empty cell of a clean task with one
recorded dependent triggers no invalidation call. -/
theorem C1_short_circuit_witness :
    (UpdateCellOperation.run
      (.Plain [(CKey.cellDependent ⟨0, 0⟩ 7, CValue.cellDependent)] :
        TaskStore Nat)
      ⟨0, 0⟩ (some 5)).invalidated = none :=
  (C1_short_circuit_skips_invalidation _ _ _ (by decide) (by decide)
    (by decide)).1

/-- Witness for C2: with stored content and dependents {4} for the written
cell and {5} for another cell, exactly task 4 is invalidated. -/
theorem C2_invalidation_set_witness :
    4 ∈ ((UpdateCellOperation.run
      (.Plain [(CKey.cellData ⟨0, 0⟩, CValue.cellData 1),
        (CKey.cellDependent ⟨0, 0⟩ 4, CValue.cellDependent),
        (CKey.cellDependent ⟨1, 1⟩ 5, CValue.cellDependent)] : TaskStore Nat)
      ⟨0, 0⟩ (some 2)).invalidated.getD []) ∧
    5 ∉ ((UpdateCellOperation.run
      (.Plain [(CKey.cellData ⟨0, 0⟩, CValue.cellData 1),
        (CKey.cellDependent ⟨0, 0⟩ 4, CValue.cellDependent),
        (CKey.cellDependent ⟨1, 1⟩ 5, CValue.cellDependent)] : TaskStore Nat)
      ⟨0, 0⟩ (some 2)).invalidated.getD []) := by
  obtain ⟨deps, h1, h2⟩ := C2_invalidation_set_exact
    (.Plain [(CKey.cellData ⟨0, 0⟩, CValue.cellData 1),
      (CKey.cellDependent ⟨0, 0⟩ 4, CValue.cellDependent),
      (CKey.cellDependent ⟨1, 1⟩ 5, CValue.cellDependent)] : TaskStore Nat)
    ⟨0, 0⟩ (some 2) (by decide) (by decide) (by decide)
  rw [h1]
  refine ⟨(h2 4).mpr (by decide), ?_⟩
  intro hmem
  have h5 := (h2 5).mp (by simpa using hmem)
  have : ¬((InnerStorage.Plain [(CKey.cellData ⟨0, 0⟩, CValue.cellData 1),
      (CKey.cellDependent ⟨0, 0⟩ 4, CValue.cellDependent),
      (CKey.cellDependent ⟨1, 1⟩ 5, CValue.cellDependent)] :
        TaskStore Nat).has_key CKey.kindIndex
        (.cellDependent ⟨0, 0⟩ 5) = true) := by decide
  exact this h5

/-- Witness for C3: rewriting the currently stored value 1 invalidates just
as writing the different value 2 does. -/
theorem C3_no_value_comparison_witness :
    (UpdateCellOperation.run
      (.Plain [(CKey.cellData ⟨0, 0⟩, CValue.cellData 1),
        (CKey.cellDependent ⟨0, 0⟩ 4, CValue.cellDependent)] : TaskStore Nat)
      ⟨0, 0⟩ (some 1)).invalidated ≠ none ∧
    (UpdateCellOperation.run
      (.Plain [(CKey.cellData ⟨0, 0⟩, CValue.cellData 1),
        (CKey.cellDependent ⟨0, 0⟩ 4, CValue.cellDependent)] : TaskStore Nat)
      ⟨0, 0⟩ (some 2)).invalidated ≠ none := by
  obtain ⟨d₁, d₂, h1, h2, _⟩ := C3_no_value_comparison
    (.Plain [(CKey.cellData ⟨0, 0⟩, CValue.cellData 1),
      (CKey.cellDependent ⟨0, 0⟩ 4, CValue.cellDependent)] : TaskStore Nat)
    ⟨0, 0⟩ (by decide) (by decide) (Or.inl (by decide)) 1 2
  rw [h1, h2]
  exact ⟨by simp, by simp⟩

/-- Witness for C4: a flat store of 1024 distinct keys converts to the
indexed representation. -/
theorem C4_conversion_witness :
    (check_threshold (fun n : Nat => n % 16)
      (.Plain ((List.range 1024).map fun n => (n, (0 : Nat))))).is_indexed =
      true :=
  (C4_conversion_preserves_records (fun n : Nat => n % 16)
    (by
      show (((List.range 1024).map fun n => (n, (0 : Nat))).map Prod.fst).Nodup
      rw [List.map_map,
        show (Prod.fst ∘ fun n : Nat => (n, (0 : Nat))) = fun n => n from rfl]
      simpa using List.nodup_range 1024)
    (by simp [INDEX_THRESHOLD])).1

/-- Witness for C5: in a concrete indexed store, a record is listed under
its own index. -/
theorem C5_iter_index_witness :
    (4, 10) ∈ InnerStorage.iter
      (.Indexed [(0, [(4, 10)]), (1, [(3, 11)])] : InnerStorage Nat Nat Nat)
      0 ↔
    ((4, 10) ∈ InnerStorage.iter_all
      (.Indexed [(0, [(4, 10)]), (1, [(3, 11)])] : InnerStorage Nat Nat Nat) ∧
      4 % 2 = 0) :=
  (@C5_iter_index_scoped Nat Nat Nat _ _ (fun k => k % 2)
    (.Indexed [(0, [(4, 10)]), (1, [(3, 11)])]) (by decide)).1 rfl 0 4 10

/-- Witness for C6: an indexed store stays indexed across a concrete
operation sequence. -/
theorem C6_indexed_monotone_witness :
    (applyOps (fun k : Nat => k % 2) (.Indexed [] : InnerStorage Nat Nat Nat)
      [.insert 1 2, .remove 1, .get 1, .iter_all]).is_indexed = true :=
  C6_indexed_monotone (fun k : Nat => k % 2)
    [.insert 1 2, .remove 1, .get 1, .iter_all] (by decide)

/-- Witness for C7: inserting and removing an absent key leaves a concrete
store's lookups unchanged. -/
theorem C7_round_trip_witness :
    ((((InnerStorage.Plain [(0, 10)] : InnerStorage Nat Nat Nat).insert
      (fun k => k % 2) 1 99).1.remove (fun k => k % 2) 1).1).get
      (fun k => k % 2) 0 =
    (InnerStorage.Plain [(0, 10)] : InnerStorage Nat Nat Nat).get
      (fun k => k % 2) 0 :=
  (C7_insert_remove_round_trip (by decide) (by decide) 99).1 0

/-- Counterexample to C9 as stated with unbounded integer sums: at the
stored count `i32::MAX = 2147483647` and `delta = 1`, `update_count`
returns `true` (the release-mode wrapped sum is `-2^31 ≤ 0`), although the
mathematical sum `2147483647 + 1` is positive, so the stated positivity
condition `old > 0 ∧ old + delta ≤ 0` does not hold; the code's new count
is the wrapped sum, not the mathematical one. -/
theorem C9_update_count_counterexample :
    (update_count (fun k : Nat => k % 2)
      (.Plain [(0, 2147483647)] : InnerStorage Nat Int Nat) 0 1).2 = true ∧
    ¬(((2147483647 : Int) ≤ 0 ∧ (2147483647 : Int) + 1 > 0) ∨
      ((2147483647 : Int) > 0 ∧ (2147483647 : Int) + 1 ≤ 0)) := by
  constructor
  · decide
  · decide

/-- Witness for C9: adjusting the stored count 3 by -3 removes the record
(no zero count is ever stored). -/
theorem C9_update_count_witness :
    (update_count (fun k : Nat => k % 2)
      (.Plain [(0, 3)] : InnerStorage Nat Int Nat) 0 (-3)).1.get
      (fun k => k % 2) 0 = none :=
  (C9_update_count_invariant (by decide) 0 (-3)).2.2.1 3 (by decide)
    (by decide)

/-- Witness for C8: updating a cell with an in-progress marker having 3
blocked waiters removes the marker, notifies with `usize::MAX`, and leaves
zero blocked waiters. -/
theorem C8_waiters_released_witness :
    (UpdateCellOperation.run
      (.Plain [(CKey.inProgressCell ⟨0, 0⟩,
        CValue.inProgressCell ⟨3⟩)] : TaskStore Nat) ⟨0, 0⟩
      none).store.has_key CKey.kindIndex (.inProgressCell ⟨0, 0⟩) = false ∧
    (UpdateCellOperation.run
      (.Plain [(CKey.inProgressCell ⟨0, 0⟩,
        CValue.inProgressCell ⟨3⟩)] : TaskStore Nat) ⟨0, 0⟩
      none).notified = some (⟨3⟩, USIZE_MAX) ∧
    Event.waitersAfterNotify ⟨3⟩ USIZE_MAX = 0 := by
  have h := C8_waiters_released
    (.Plain [(CKey.inProgressCell ⟨0, 0⟩,
      CValue.inProgressCell ⟨3⟩)] : TaskStore Nat) ⟨0, 0⟩ none (by decide)
  have h2 := h.2 ⟨3⟩ (by decide)
  exact ⟨h.1, h2.1, h2.2 (by norm_num [USIZE_MAX])⟩

end TurboStorage
